import Mathlib

/-!
Verification of the request-queue service (`app/services/request_queue.py`).

The Python class `RequestQueue` owns four shared structures, all guarded by a
single lock:
  * `queue`               : FIFO backlog of submitted requests (`queue.Queue`);
  * `active_requests`     : dict from request id to its record (live tasks);
  * `completed_requests`  : dict from request id to its record (finished tasks);
  * `current_processing`  : counter of in-flight executions.

We model the system as a small-step transition relation.  Each step is one
lock-guarded block of the Python code (the code never holds the lock across
two of its blocks, so the blocks are the atomic units of interleaving):

  * `submitStep`    — `add_request` (lines 50-59);
  * `dispatchStep`  — one iteration of `_process_queue` that pops the backlog
                      head and spawns an execution thread (lines 123-129); the
                      guard `current_processing < max_concurrent` is read at
                      this step, but the increment only happens later, in the
                      spawned thread;
  * `beginStep`     — the first locked block of `_execute_rag_request`
                      (lines 142-145): increment the counter, set status
                      `processing`, stamp `start_time`;
  * `finishOkStep`  — the success block (lines 152-157): status `completed`,
                      store the response, stamp `end_time`, move the record
                      from `active_requests` to `completed_requests`;
  * `finishErrStep` — the except block (lines 162-166): status `error`, store
                      `str(e)`, move the record; note the source does NOT
                      stamp `end_time` here;
  * `cleanupStep`   — the finally block (lines 171-172): decrement the
                      counter.

Execution-unit threads that have been spawned but have not yet reached a
given block are tracked by the lists `spawned` (thread created, first block
not yet run), `running` (first block run, outcome not yet recorded) and
`finishing` (outcome recorded, counter not yet decremented).

Opaque payloads and results (`query`, the `rag_chain` output, error text) are
modelled as `String`.  `datetime.now()` is modelled by a logical clock `now`
that advances at every step, so timestamps are strictly monotone.

Per the spec, reusing a request id while the previous task with that id is
still tracked is undefined behavior, so the submit step carries a freshness
side condition.
-/

/-- The `status` field of a request record: one of the four string values
`queued`, `processing`, `completed`, `error` used by the source. -/
inductive Status where
  | queued
  | processing
  | completed
  | error
deriving DecidableEq, Repr

/-- One request record: the dict built in `add_request` and mutated by
`_execute_rag_request`.  Optional fields are absent until set, as in the
source dict.  The `id` key is the association-list key below. -/
structure TaskRec where
  query : String
  timestamp : Nat
  status : Status
  start_time : Option Nat := none
  end_time : Option Nat := none
  response : Option String := none
  error : Option String := none
deriving DecidableEq, Repr

/-- Association-list lookup, modelling Python `dict.get`. -/
def alookup (id : String) : List (String × TaskRec) → Option TaskRec
  | [] => none
  | (k, v) :: rest => if k = id then some v else alookup id rest

/-- Association-list insert/overwrite, modelling Python `d[id] = r`. -/
def ainsert (id : String) (r : TaskRec) : List (String × TaskRec) → List (String × TaskRec)
  | [] => [(id, r)]
  | (k, v) :: rest => if k = id then (id, r) :: rest else (k, v) :: ainsert id r rest

/-- In-place update of the record stored under `id`, modelling mutation of the
shared dict object (`req[...] = ...` mutates the same object that
`active_requests` maps to). -/
def aupdate (id : String) (f : TaskRec → TaskRec) :
    List (String × TaskRec) → List (String × TaskRec)
  | [] => []
  | (k, v) :: rest => if k = id then (k, f v) :: rest else (k, v) :: aupdate id f rest

/-- Association-list delete, modelling Python `d.pop(id, None)`. -/
def aerase (id : String) : List (String × TaskRec) → List (String × TaskRec)
  | [] => []
  | (k, v) :: rest => if k = id then rest else (k, v) :: aerase id rest

/-- The keys of an association list. -/
def keys (l : List (String × TaskRec)) : List String := l.map Prod.fst

/-- Remove the first occurrence of `id` from a list of ids. -/
def lremove (id : String) : List String → List String
  | [] => []
  | x :: rest => if x = id then rest else x :: lremove id rest

/-- Index of `id` in a list of ids, or `none`; models the
`for i, req in enumerate(queue_items)` search in `get_queue_position`. -/
def posIn (id : String) : List String → Option Nat
  | [] => none
  | x :: rest => if x = id then some 0 else (posIn id rest).map (· + 1)

/-- The shared state of a `RequestQueue` instance together with the program
counters of its execution-unit threads. -/
structure QState where
  max_concurrent : Nat
  queue : List String
  active : List (String × TaskRec)
  completed : List (String × TaskRec)
  current_processing : Nat
  spawned : List String
  running : List String
  finishing : List String
  now : Nat
deriving DecidableEq, Repr

/-- The state right after `RequestQueue(max_concurrent=n)`. -/
def initState (n : Nat) : QState :=
  { max_concurrent := n
    queue := []
    active := []
    completed := []
    current_processing := 0
    spawned := []
    running := []
    finishing := []
    now := 0 }

/-- Method `add_request` (lines 50-59): build the record with status `queued` and the
current timestamp, store it in `active_requests`, append it to the backlog. -/
def submitStep (s : QState) (id query : String) : QState :=
  { s with
    active := ainsert id { query := query, timestamp := s.now, status := .queued } s.active
    queue := s.queue ++ [id]
    now := s.now + 1 }

/-- One dispatching iteration of `_process_queue` (lines 123-129): pop the
backlog head and spawn an execution thread for it.  The spawned thread has not
yet run its first locked block, so neither the counter nor the status changes
here. -/
def dispatchStep (s : QState) : QState :=
  match s.queue with
  | [] => s
  | h :: t => { s with queue := t, spawned := s.spawned ++ [h], now := s.now + 1 }

/-- First locked block of `_execute_rag_request` (lines 142-145): increment
`current_processing`, set status `processing`, stamp `start_time`. -/
def beginStep (s : QState) (id : String) : QState :=
  { s with
    spawned := lremove id s.spawned
    running := s.running ++ [id]
    current_processing := s.current_processing + 1
    active := aupdate id (fun r => { r with status := .processing, start_time := some s.now }) s.active
    now := s.now + 1 }

/-- Success block of `_execute_rag_request` (lines 152-157): status
`completed`, store the work-function result, stamp `end_time`, move the record
from `active_requests` to `completed_requests`. -/
def finishOkStep (s : QState) (id v : String) : QState :=
  match alookup id s.active with
  | none => s
  | some r =>
    { s with
      active := aerase id s.active
      completed := ainsert id
        { r with status := .completed, response := some v, end_time := some s.now } s.completed
      running := lremove id s.running
      finishing := s.finishing ++ [id]
      now := s.now + 1 }

/-- Except block of `_execute_rag_request` (lines 162-166): status `error`,
store `str(e)`, move the record.  The source does not stamp `end_time` on this
path. -/
def finishErrStep (s : QState) (id msg : String) : QState :=
  match alookup id s.active with
  | none => s
  | some r =>
    { s with
      active := aerase id s.active
      completed := ainsert id { r with status := .error, error := some msg } s.completed
      running := lremove id s.running
      finishing := s.finishing ++ [id]
      now := s.now + 1 }

/-- Finally block of `_execute_rag_request` (lines 171-172): decrement
`current_processing`. -/
def cleanupStep (s : QState) (id : String) : QState :=
  { s with
    finishing := lremove id s.finishing
    current_processing := s.current_processing - 1
    now := s.now + 1 }

/-- A request id is fresh when no tracked task uses it: per the spec, reuse
while the previous id is still tracked is undefined behavior. -/
def fresh (id : String) (s : QState) : Prop :=
  alookup id s.active = none ∧ alookup id s.completed = none

instance (id : String) (s : QState) : Decidable (fresh id s) := by
  unfold fresh; infer_instance

/-- One atomic (lock-guarded) step of any thread of the system.  The dispatch
guard is exactly line 123 of the source: it reads `current_processing`, which
counts only execution units past their first locked block. -/
inductive Step : QState → QState → Prop where
  | submit (s : QState) (id query : String) (hf : fresh id s) :
      Step s (submitStep s id query)
  | dispatch (s : QState) (hc : s.current_processing < s.max_concurrent)
      (hq : s.queue ≠ []) : Step s (dispatchStep s)
  | begin_ (s : QState) (id : String) (hs : id ∈ s.spawned) :
      Step s (beginStep s id)
  | finishOk (s : QState) (id v : String) (hr : id ∈ s.running) :
      Step s (finishOkStep s id v)
  | finishErr (s : QState) (id msg : String) (hr : id ∈ s.running) :
      Step s (finishErrStep s id msg)
  | cleanup (s : QState) (id : String) (hf : id ∈ s.finishing) :
      Step s (cleanupStep s id)

/-- States reachable from a freshly constructed `RequestQueue(max_concurrent=n)`
by any interleaving of submissions, dispatcher iterations and execution-unit
blocks. -/
inductive Reach (n : Nat) : QState → Prop where
  | init : Reach n (initState n)
  | step {s s' : QState} : Reach n s → Step s s' → Reach n s'

/-- Method `get_request_status` (lines 64-76): check `completed_requests` first, then
`active_requests`. -/
def get_request_status (s : QState) (id : String) : Option TaskRec :=
  match alookup id s.completed with
  | some r => some r
  | none => alookup id s.active

/-- Method `get_queue_position` (lines 78-102): `-1` when the id is not in
`active_requests`; `0` when its status is `processing`; when `queued`, its
index in the backlog snapshot plus `current_processing`; the final
`return -1` catches a queued record that is no longer in the backlog. -/
def get_queue_position (s : QState) (id : String) : Int :=
  match alookup id s.active with
  | none => -1
  | some r =>
    if r.status = Status.processing then 0
    else if r.status = Status.queued then
      match posIn id s.queue with
      | some i => (i : Int) + (s.current_processing : Int)
      | none => -1
    else -1

/-- The snapshot returned by `get_queue_stats` (lines 104-117). -/
structure QStats where
  queue_size : Nat
  active_count : Nat
  processing_count : Nat
  max_concurrent : Nat
deriving DecidableEq, Repr

/-- Method `get_queue_stats` (lines 104-117). -/
def get_queue_stats (s : QState) : QStats :=
  { queue_size := s.queue.length
    active_count := s.active.length
    processing_count := s.current_processing
    max_concurrent := s.max_concurrent }

/-- The number of records whose status is `processing` in a state. -/
def processingCount (s : QState) : Nat :=
  (s.active.filter fun p => p.2.status = Status.processing).length

/-- The status a poller observes for `id`, through `get_request_status`. -/
def statusOf (s : QState) (id : String) : Option Status :=
  (get_request_status s id).map (·.status)

/-- The submission timestamp of an id as recorded in `active_requests`
(0 when absent); only used to state FIFO ordering of the backlog. -/
def tsOf (s : QState) (id : String) : Nat :=
  ((alookup id s.active).map (·.timestamp)).getD 0

/-! ### Association-list lemmas -/

theorem keys_cons (k : String) (v : TaskRec) (rest : List (String × TaskRec)) :
    keys ((k, v) :: rest) = k :: keys rest := rfl

theorem mem_keys_iff (id : String) (l : List (String × TaskRec)) :
    id ∈ keys l ↔ (alookup id l).isSome := by
  induction l with
  | nil => simp [keys, alookup]
  | cons p rest ih =>
    obtain ⟨k, v⟩ := p
    rw [keys_cons, List.mem_cons]
    by_cases h : k = id
    · subst h
      simp [alookup]
    · have hne : ¬(id = k) := fun hh => h hh.symm
      simp [alookup, h, hne, ih]

theorem alookup_eq_none_of_not_mem (id : String) (l : List (String × TaskRec))
    (h : id ∉ keys l) : alookup id l = none := by
  rw [mem_keys_iff] at h
  cases he : alookup id l with
  | none => rfl
  | some r => rw [he] at h; simp at h

theorem not_mem_keys_of_alookup_none (id : String) (l : List (String × TaskRec))
    (h : alookup id l = none) : id ∉ keys l := by
  rw [mem_keys_iff, h]
  simp

theorem mem_keys_of_alookup_some {id : String} {l : List (String × TaskRec)} {r : TaskRec}
    (h : alookup id l = some r) : id ∈ keys l := by
  rw [mem_keys_iff, h]
  rfl

theorem alookup_ainsert_self (id : String) (r : TaskRec) (l : List (String × TaskRec)) :
    alookup id (ainsert id r l) = some r := by
  induction l with
  | nil => simp [ainsert, alookup]
  | cons p rest ih =>
    obtain ⟨k, v⟩ := p
    by_cases h : k = id
    · subst h
      simp [ainsert, alookup]
    · simp [ainsert, alookup, h, ih]

theorem alookup_ainsert_ne (id j : String) (r : TaskRec) (l : List (String × TaskRec))
    (h : j ≠ id) : alookup j (ainsert id r l) = alookup j l := by
  have hne : ¬(id = j) := fun hh => h hh.symm
  induction l with
  | nil => simp [ainsert, alookup, hne]
  | cons p rest ih =>
    obtain ⟨k, v⟩ := p
    by_cases hk : k = id
    · subst hk
      simp [ainsert, alookup, hne]
    · simp [ainsert, alookup, hk, ih]

theorem ainsert_cons_self (k : String) (r v : TaskRec) (rest : List (String × TaskRec)) :
    ainsert k r ((k, v) :: rest) = (k, r) :: rest := by
  simp [ainsert]

theorem ainsert_cons_ne (id k : String) (r v : TaskRec) (rest : List (String × TaskRec))
    (hk : ¬(k = id)) : ainsert id r ((k, v) :: rest) = (k, v) :: ainsert id r rest := by
  simp [ainsert, hk]

theorem mem_keys_ainsert (j id : String) (r : TaskRec) (l : List (String × TaskRec)) :
    j ∈ keys (ainsert id r l) ↔ j = id ∨ j ∈ keys l := by
  induction l with
  | nil => simp [ainsert, keys]
  | cons p rest ih =>
    obtain ⟨k, v⟩ := p
    by_cases hk : k = id
    · subst hk
      rw [ainsert_cons_self, keys_cons, keys_cons]
      simp only [List.mem_cons]
      tauto
    · rw [ainsert_cons_ne _ _ _ _ _ hk, keys_cons, keys_cons]
      simp only [List.mem_cons]
      rw [ih]
      tauto

theorem nodup_keys_ainsert (id : String) (r : TaskRec) (l : List (String × TaskRec))
    (h : (keys l).Nodup) : (keys (ainsert id r l)).Nodup := by
  induction l with
  | nil => simp [ainsert, keys]
  | cons p rest ih =>
    obtain ⟨k, v⟩ := p
    rw [keys_cons] at h
    rcases List.nodup_cons.mp h with ⟨hk1, hk2⟩
    by_cases hk : k = id
    · subst hk
      rw [ainsert_cons_self, keys_cons]
      exact List.nodup_cons.mpr ⟨hk1, hk2⟩
    · rw [ainsert_cons_ne _ _ _ _ _ hk, keys_cons]
      refine List.nodup_cons.mpr ⟨?_, ih hk2⟩
      intro hm
      rcases (mem_keys_ainsert k id r rest).mp hm with h1 | h2
      · exact hk h1
      · exact hk1 h2

theorem alookup_aupdate_self (id : String) (f : TaskRec → TaskRec)
    (l : List (String × TaskRec)) :
    alookup id (aupdate id f l) = (alookup id l).map f := by
  induction l with
  | nil => simp [aupdate, alookup]
  | cons p rest ih =>
    obtain ⟨k, v⟩ := p
    by_cases h : k = id
    · subst h
      simp [aupdate, alookup]
    · simp [aupdate, alookup, h, ih]

theorem alookup_aupdate_ne (id j : String) (f : TaskRec → TaskRec)
    (l : List (String × TaskRec)) (h : j ≠ id) :
    alookup j (aupdate id f l) = alookup j l := by
  have hne : ¬(id = j) := fun hh => h hh.symm
  induction l with
  | nil => simp [aupdate, alookup]
  | cons p rest ih =>
    obtain ⟨k, v⟩ := p
    by_cases hk : k = id
    · subst hk
      simp [aupdate, alookup, hne]
    · simp [aupdate, alookup, hk, ih]

theorem keys_aupdate (id : String) (f : TaskRec → TaskRec) (l : List (String × TaskRec)) :
    keys (aupdate id f l) = keys l := by
  induction l with
  | nil => rfl
  | cons p rest ih =>
    obtain ⟨k, v⟩ := p
    by_cases h : k = id
    · subst h
      simp [aupdate, keys]
    · simp only [aupdate, if_neg h]
      rw [keys_cons, keys_cons, ih]

theorem aerase_cons_self (k : String) (v : TaskRec) (rest : List (String × TaskRec)) :
    aerase k ((k, v) :: rest) = rest := by
  simp [aerase]

theorem aerase_cons_ne (id k : String) (v : TaskRec) (rest : List (String × TaskRec))
    (hk : ¬(k = id)) : aerase id ((k, v) :: rest) = (k, v) :: aerase id rest := by
  simp [aerase, hk]

theorem alookup_aerase_self (id : String) (l : List (String × TaskRec))
    (h : (keys l).Nodup) : alookup id (aerase id l) = none := by
  induction l with
  | nil => simp [aerase, alookup]
  | cons p rest ih =>
    obtain ⟨k, v⟩ := p
    rw [keys_cons] at h
    rcases List.nodup_cons.mp h with ⟨h1, h2⟩
    by_cases hk : k = id
    · subst hk
      rw [aerase_cons_self]
      exact alookup_eq_none_of_not_mem _ _ h1
    · rw [aerase_cons_ne _ _ _ _ hk]
      simp [alookup, hk, ih h2]

theorem alookup_aerase_ne (id j : String) (l : List (String × TaskRec)) (h : j ≠ id) :
    alookup j (aerase id l) = alookup j l := by
  have hne : ¬(id = j) := fun hh => h hh.symm
  induction l with
  | nil => simp [aerase, alookup]
  | cons p rest ih =>
    obtain ⟨k, v⟩ := p
    by_cases hk : k = id
    · subst hk
      rw [aerase_cons_self]
      simp [alookup, hne]
    · rw [aerase_cons_ne _ _ _ _ hk]
      simp [alookup, hk, ih]

theorem mem_keys_aerase (j id : String) (l : List (String × TaskRec))
    (h : j ∈ keys (aerase id l)) : j ∈ keys l := by
  induction l with
  | nil => simpa [aerase] using h
  | cons p rest ih =>
    obtain ⟨k, v⟩ := p
    by_cases hk : k = id
    · subst hk
      rw [aerase_cons_self] at h
      rw [keys_cons, List.mem_cons]
      exact Or.inr h
    · rw [aerase_cons_ne _ _ _ _ hk, keys_cons, List.mem_cons] at h
      rw [keys_cons, List.mem_cons]
      rcases h with h | h
      · exact Or.inl h
      · exact Or.inr (ih h)

theorem nodup_keys_aerase (id : String) (l : List (String × TaskRec))
    (h : (keys l).Nodup) : (keys (aerase id l)).Nodup := by
  induction l with
  | nil => simp [aerase, keys]
  | cons p rest ih =>
    obtain ⟨k, v⟩ := p
    rw [keys_cons] at h
    rcases List.nodup_cons.mp h with ⟨h1, h2⟩
    by_cases hk : k = id
    · subst hk
      rw [aerase_cons_self]
      exact h2
    · rw [aerase_cons_ne _ _ _ _ hk, keys_cons]
      exact List.nodup_cons.mpr ⟨fun hm => h1 (mem_keys_aerase _ _ _ hm), ih h2⟩

/-! ### Lemmas about `lremove` and `posIn` -/

theorem lremove_subset (id j : String) (l : List String) (h : j ∈ lremove id l) : j ∈ l := by
  induction l with
  | nil => simp [lremove] at h
  | cons x rest ih =>
    by_cases hx : x = id
    · subst hx
      rw [show lremove x (x :: rest) = rest from by simp [lremove]] at h
      exact List.mem_cons.mpr (Or.inr h)
    · rw [show lremove id (x :: rest) = x :: lremove id rest from by simp [lremove, hx],
        List.mem_cons] at h
      rcases h with h | h
      · exact List.mem_cons.mpr (Or.inl h)
      · exact List.mem_cons.mpr (Or.inr (ih h))

theorem mem_lremove_of_ne (id j : String) (l : List String) (hne : j ≠ id) (h : j ∈ l) :
    j ∈ lremove id l := by
  induction l with
  | nil => simp at h
  | cons x rest ih =>
    rw [List.mem_cons] at h
    by_cases hx : x = id
    · subst hx
      rw [show lremove x (x :: rest) = rest from by simp [lremove]]
      rcases h with h | h
      · exact absurd h hne
      · exact h
    · rw [show lremove id (x :: rest) = x :: lremove id rest from by simp [lremove, hx],
        List.mem_cons]
      rcases h with h | h
      · exact Or.inl h
      · exact Or.inr (ih h)

theorem not_mem_lremove_self (id : String) (l : List String) (h : l.Nodup) :
    id ∉ lremove id l := by
  induction l with
  | nil => simp [lremove]
  | cons x rest ih =>
    rcases List.nodup_cons.mp h with ⟨h1, h2⟩
    by_cases hx : x = id
    · subst hx
      rw [show lremove x (x :: rest) = rest from by simp [lremove]]
      exact h1
    · rw [show lremove id (x :: rest) = x :: lremove id rest from by simp [lremove, hx],
        List.mem_cons]
      push_neg
      exact ⟨fun hh => hx hh.symm, ih h2⟩

theorem nodup_lremove (id : String) (l : List String) (h : l.Nodup) :
    (lremove id l).Nodup := by
  induction l with
  | nil => simp [lremove]
  | cons x rest ih =>
    rcases List.nodup_cons.mp h with ⟨h1, h2⟩
    by_cases hx : x = id
    · subst hx
      rw [show lremove x (x :: rest) = rest from by simp [lremove]]
      exact h2
    · rw [show lremove id (x :: rest) = x :: lremove id rest from by simp [lremove, hx]]
      exact List.nodup_cons.mpr ⟨fun hm => h1 (lremove_subset _ _ _ hm), ih h2⟩

theorem posIn_eq_none_iff (id : String) (l : List String) :
    posIn id l = none ↔ id ∉ l := by
  induction l with
  | nil => simp [posIn]
  | cons x rest ih =>
    by_cases hx : x = id
    · subst hx
      simp [posIn]
    · have hne : ¬(id = x) := fun hh => hx hh.symm
      constructor
      · intro h
        simp only [posIn, if_neg hx] at h
        have hnone : posIn id rest = none := by
          cases he : posIn id rest with
          | none => rfl
          | some i => rw [he] at h; simp at h
        rw [List.mem_cons]
        push_neg
        exact ⟨hne, ih.mp hnone⟩
      · intro hm
        rw [List.mem_cons] at hm
        push_neg at hm
        simp [posIn, hx, ih.mpr hm.2]

/-! ### The reachability invariant -/

/-- The state invariant maintained by every step: consistency of the four
shared structures and of the execution-unit program counters. -/
structure QInv (s : QState) : Prop where
  a_nodup : (keys s.active).Nodup
  c_nodup : (keys s.completed).Nodup
  disj : ∀ id, id ∈ keys s.active → id ∉ keys s.completed
  activeStatus : ∀ id r, alookup id s.active = some r →
    r.status = Status.queued ∨ r.status = Status.processing
  completedStatus : ∀ id r, alookup id s.completed = some r →
    r.status = Status.completed ∨ r.status = Status.error
  queueActive : ∀ id, id ∈ s.queue →
    ∃ r, alookup id s.active = some r ∧ r.status = Status.queued
  spawnedActive : ∀ id, id ∈ s.spawned →
    ∃ r, alookup id s.active = some r ∧ r.status = Status.queued
  runningActive : ∀ id, id ∈ s.running →
    ∃ r, alookup id s.active = some r ∧ r.status = Status.processing
  q_nodup : s.queue.Nodup
  s_nodup : s.spawned.Nodup
  r_nodup : s.running.Nodup
  qsDisj : ∀ id, id ∈ s.queue → id ∉ s.spawned
  finCompleted : ∀ id, id ∈ s.finishing → id ∈ keys s.completed
  tsLt : ∀ id r, alookup id s.active = some r → r.timestamp < s.now
  qSorted : (s.queue.map (tsOf s)).Pairwise (· < ·)
  activeFields : ∀ id r, alookup id s.active = some r →
    r.end_time = none ∧ r.response = none ∧ r.error = none
  completedErrFields : ∀ id r, alookup id s.completed = some r →
    r.status = Status.error → r.response = none ∧ r.end_time = none

theorem queue_mem_keys {s : QState} (hI : QInv s) {j : String} (hj : j ∈ s.queue) :
    j ∈ keys s.active := by
  obtain ⟨r, hr, -⟩ := hI.queueActive j hj
  exact mem_keys_of_alookup_some hr

theorem spawned_mem_keys {s : QState} (hI : QInv s) {j : String} (hj : j ∈ s.spawned) :
    j ∈ keys s.active := by
  obtain ⟨r, hr, -⟩ := hI.spawnedActive j hj
  exact mem_keys_of_alookup_some hr

theorem running_mem_keys {s : QState} (hI : QInv s) {j : String} (hj : j ∈ s.running) :
    j ∈ keys s.active := by
  obtain ⟨r, hr, -⟩ := hI.runningActive j hj
  exact mem_keys_of_alookup_some hr

theorem running_not_mem_queue {s : QState} (hI : QInv s) {id : String} (hid : id ∈ s.running) :
    id ∉ s.queue := by
  intro hq
  obtain ⟨r1, hr1, hs1⟩ := hI.queueActive id hq
  obtain ⟨r2, hr2, hs2⟩ := hI.runningActive id hid
  rw [hr1] at hr2
  cases hr2
  rw [hs1] at hs2
  simp at hs2

theorem running_not_mem_spawned {s : QState} (hI : QInv s) {id : String} (hid : id ∈ s.running) :
    id ∉ s.spawned := by
  intro hq
  obtain ⟨r1, hr1, hs1⟩ := hI.spawnedActive id hq
  obtain ⟨r2, hr2, hs2⟩ := hI.runningActive id hid
  rw [hr1] at hr2
  cases hr2
  rw [hs1] at hs2
  simp at hs2

theorem inv_init (n : Nat) : QInv (initState n) := by
  constructor <;> simp [initState, keys, alookup, tsOf]

theorem inv_submit (s : QState) (id query : String) (hf : fresh id s) (hI : QInv s) :
    QInv (submitStep s id query) := by
  obtain ⟨hfa, hfc⟩ := hf
  have hidA : id ∉ keys s.active := not_mem_keys_of_alookup_none _ _ hfa
  have hidC : id ∉ keys s.completed := not_mem_keys_of_alookup_none _ _ hfc
  have hidQ : id ∉ s.queue := fun hq => hidA (queue_mem_keys hI hq)
  have hidS : id ∉ s.spawned := fun hq => hidA (spawned_mem_keys hI hq)
  have hidR : id ∉ s.running := fun hq => hidA (running_mem_keys hI hq)
  have hact : (submitStep s id query).active =
      ainsert id ⟨query, s.now, Status.queued, none, none, none, none⟩ s.active := rfl
  have hqu : (submitStep s id query).queue = s.queue ++ [id] := rfl
  have hnow : (submitStep s id query).now = s.now + 1 := rfl
  have hlookup : ∀ j, j ≠ id →
      alookup j (submitStep s id query).active = alookup j s.active := by
    intro j hj
    rw [hact, alookup_ainsert_ne _ _ _ _ hj]
  have hlookid : alookup id (submitStep s id query).active =
      some ⟨query, s.now, Status.queued, none, none, none, none⟩ := by
    rw [hact, alookup_ainsert_self]
  constructor
  case a_nodup =>
    rw [hact]
    exact nodup_keys_ainsert _ _ _ hI.a_nodup
  case c_nodup => exact hI.c_nodup
  case disj =>
    intro j hj
    rw [hact] at hj
    rcases (mem_keys_ainsert j id _ s.active).mp hj with h | h
    · subst h
      exact hidC
    · exact hI.disj j h
  case activeStatus =>
    intro j r hj
    by_cases h : j = id
    · subst h
      rw [hlookid] at hj
      cases hj
      exact Or.inl rfl
    · rw [hlookup j h] at hj
      exact hI.activeStatus j r hj
  case completedStatus => exact hI.completedStatus
  case queueActive =>
    intro j hj
    rw [hqu] at hj
    rcases List.mem_append.mp hj with h | h
    · obtain ⟨r, hr, hst⟩ := hI.queueActive j h
      have hne : j ≠ id := fun hh => hidQ (hh ▸ h)
      exact ⟨r, by rw [hlookup j hne]; exact hr, hst⟩
    · rw [List.mem_singleton] at h
      subst h
      exact ⟨_, hlookid, rfl⟩
  case spawnedActive =>
    intro j hj
    obtain ⟨r, hr, hst⟩ := hI.spawnedActive j hj
    have hne : j ≠ id := fun hh => hidS (hh ▸ hj)
    exact ⟨r, by rw [hlookup j hne]; exact hr, hst⟩
  case runningActive =>
    intro j hj
    obtain ⟨r, hr, hst⟩ := hI.runningActive j hj
    have hne : j ≠ id := fun hh => hidR (hh ▸ hj)
    exact ⟨r, by rw [hlookup j hne]; exact hr, hst⟩
  case q_nodup =>
    rw [hqu, List.nodup_append]
    refine ⟨hI.q_nodup, List.nodup_singleton id, ?_⟩
    intro j hj hj2
    rw [List.mem_singleton] at hj2
    exact hidQ (hj2 ▸ hj)
  case s_nodup => exact hI.s_nodup
  case r_nodup => exact hI.r_nodup
  case qsDisj =>
    intro j hj
    rw [hqu] at hj
    rcases List.mem_append.mp hj with h | h
    · exact hI.qsDisj j h
    · rw [List.mem_singleton] at h
      subst h
      exact hidS
  case finCompleted => exact hI.finCompleted
  case tsLt =>
    intro j r hj
    rw [hnow]
    by_cases h : j = id
    · subst h
      rw [hlookid] at hj
      cases hj
      exact Nat.lt_succ_self s.now
    · rw [hlookup j h] at hj
      have := hI.tsLt j r hj
      omega
  case qSorted =>
    rw [hqu, List.map_append]
    have hmap : s.queue.map (tsOf (submitStep s id query)) = s.queue.map (tsOf s) := by
      apply List.map_congr_left
      intro j hj
      have hne : j ≠ id := fun hh => hidQ (hh ▸ hj)
      unfold tsOf
      rw [hlookup j hne]
    rw [hmap, List.pairwise_append]
    refine ⟨hI.qSorted, List.pairwise_singleton _ _, ?_⟩
    intro x hx y hy
    rw [List.mem_map] at hx
    obtain ⟨j, hj, hxe⟩ := hx
    simp only [List.map_cons, List.map_nil, List.mem_singleton] at hy
    subst hy
    obtain ⟨r, hr, -⟩ := hI.queueActive j hj
    have hxv : x = r.timestamp := by
      rw [← hxe]
      unfold tsOf
      rw [hr]
      rfl
    have hyv : tsOf (submitStep s id query) id = s.now := by
      unfold tsOf
      rw [hlookid]
      rfl
    rw [hxv, hyv]
    exact hI.tsLt j r hr
  case activeFields =>
    intro j r hj
    by_cases h : j = id
    · subst h
      rw [hlookid] at hj
      cases hj
      exact ⟨rfl, rfl, rfl⟩
    · rw [hlookup j h] at hj
      exact hI.activeFields j r hj
  case completedErrFields => exact hI.completedErrFields

theorem inv_dispatch (s : QState) (hI : QInv s) : QInv (dispatchStep s) := by
  cases hqe : s.queue with
  | nil =>
    have hd : dispatchStep s = s := by
      unfold dispatchStep
      rw [hqe]
    rw [hd]
    exact hI
  | cons h0 t =>
    have hmem : h0 ∈ s.queue := by
      rw [hqe]
      exact List.mem_cons_self _ _
    have htq : ∀ j, j ∈ t → j ∈ s.queue := by
      intro j hj
      rw [hqe]
      exact List.mem_cons_of_mem _ hj
    have hqn := hI.q_nodup
    rw [hqe] at hqn
    rcases List.nodup_cons.mp hqn with ⟨hh0t, htn⟩
    have hq2 : (dispatchStep s).queue = t := by
      unfold dispatchStep
      rw [hqe]
    have hs2 : (dispatchStep s).spawned = s.spawned ++ [h0] := by
      unfold dispatchStep
      rw [hqe]
    have hn2 : (dispatchStep s).now = s.now + 1 := by
      unfold dispatchStep
      rw [hqe]
    have ha2 : (dispatchStep s).active = s.active := by
      unfold dispatchStep
      rw [hqe]
    have hc2 : (dispatchStep s).completed = s.completed := by
      unfold dispatchStep
      rw [hqe]
    have hr2 : (dispatchStep s).running = s.running := by
      unfold dispatchStep
      rw [hqe]
    have hf2 : (dispatchStep s).finishing = s.finishing := by
      unfold dispatchStep
      rw [hqe]
    have hp2 : (dispatchStep s).current_processing = s.current_processing := by
      unfold dispatchStep
      rw [hqe]
    constructor
    case a_nodup =>
      rw [ha2]
      exact hI.a_nodup
    case c_nodup =>
      rw [hc2]
      exact hI.c_nodup
    case disj =>
      intro j hj
      rw [ha2] at hj
      rw [hc2]
      exact hI.disj j hj
    case activeStatus =>
      intro j r hj
      rw [ha2] at hj
      exact hI.activeStatus j r hj
    case completedStatus =>
      intro j r hj
      rw [hc2] at hj
      exact hI.completedStatus j r hj
    case queueActive =>
      intro j hj
      rw [hq2] at hj
      rw [ha2]
      exact hI.queueActive j (htq j hj)
    case spawnedActive =>
      intro j hj
      rw [hs2] at hj
      rw [ha2]
      rcases List.mem_append.mp hj with h | h
      · exact hI.spawnedActive j h
      · rw [List.mem_singleton] at h
        subst h
        exact hI.queueActive j hmem
    case runningActive =>
      intro j hj
      rw [hr2] at hj
      rw [ha2]
      exact hI.runningActive j hj
    case q_nodup =>
      rw [hq2]
      exact htn
    case s_nodup =>
      rw [hs2, List.nodup_append]
      refine ⟨hI.s_nodup, List.nodup_singleton h0, ?_⟩
      intro j hj hj2
      rw [List.mem_singleton] at hj2
      subst hj2
      exact hI.qsDisj j hmem hj
    case r_nodup =>
      rw [hr2]
      exact hI.r_nodup
    case qsDisj =>
      intro j hj hjs
      rw [hq2] at hj
      rw [hs2] at hjs
      rcases List.mem_append.mp hjs with h | h
      · exact hI.qsDisj j (htq j hj) h
      · rw [List.mem_singleton] at h
        subst h
        exact hh0t hj
    case finCompleted =>
      intro j hj
      rw [hf2] at hj
      rw [hc2]
      exact hI.finCompleted j hj
    case tsLt =>
      intro j r hj
      rw [ha2] at hj
      rw [hn2]
      have := hI.tsLt j r hj
      omega
    case qSorted =>
      rw [hq2]
      have hmap : t.map (tsOf (dispatchStep s)) = t.map (tsOf s) := by
        apply List.map_congr_left
        intro j hj
        unfold tsOf
        rw [ha2]
      rw [hmap]
      have hq := hI.qSorted
      rw [hqe, List.map_cons] at hq
      exact hq.of_cons
    case activeFields =>
      intro j r hj
      rw [ha2] at hj
      exact hI.activeFields j r hj
    case completedErrFields =>
      intro j r hj
      rw [hc2] at hj
      exact hI.completedErrFields j r hj
theorem inv_begin (s : QState) (id : String) (hs : id ∈ s.spawned) (hI : QInv s) :
    QInv (beginStep s id) := by
  obtain ⟨r0, hr0, hst0⟩ := hI.spawnedActive id hs
  have hidR : id ∉ s.running := by
    intro hr
    obtain ⟨r2, hr2, hs2⟩ := hI.runningActive id hr
    rw [hr0] at hr2
    cases hr2
    rw [hst0] at hs2
    simp at hs2
  have hidQ : id ∉ s.queue := fun hq => hI.qsDisj id hq hs
  have hact : (beginStep s id).active =
      aupdate id (fun r => { r with status := Status.processing, start_time := some s.now })
        s.active := rfl
  have hlookup : ∀ j, j ≠ id →
      alookup j (beginStep s id).active = alookup j s.active := by
    intro j hj
    rw [hact, alookup_aupdate_ne _ _ _ _ hj]
  have hlookid : alookup id (beginStep s id).active =
      some { r0 with status := Status.processing, start_time := some s.now } := by
    rw [hact, alookup_aupdate_self, hr0]
    rfl
  constructor
  case a_nodup =>
    rw [hact, keys_aupdate]
    exact hI.a_nodup
  case c_nodup => exact hI.c_nodup
  case disj =>
    intro j hj
    rw [hact, keys_aupdate] at hj
    exact hI.disj j hj
  case activeStatus =>
    intro j r hj
    by_cases h : j = id
    · subst h
      rw [hlookid] at hj
      cases hj
      exact Or.inr rfl
    · rw [hlookup j h] at hj
      exact hI.activeStatus j r hj
  case completedStatus => exact hI.completedStatus
  case queueActive =>
    intro j hj
    obtain ⟨r, hr, hst⟩ := hI.queueActive j hj
    have hne : j ≠ id := fun hh => hI.qsDisj j hj (hh ▸ hs)
    exact ⟨r, by rw [hlookup j hne]; exact hr, hst⟩
  case spawnedActive =>
    intro j hj
    have hjs := lremove_subset id j _ hj
    have hne : j ≠ id := by
      intro hh
      subst hh
      exact not_mem_lremove_self j _ hI.s_nodup hj
    obtain ⟨r, hr, hst⟩ := hI.spawnedActive j hjs
    exact ⟨r, by rw [hlookup j hne]; exact hr, hst⟩
  case runningActive =>
    intro j hj
    rcases List.mem_append.mp hj with h | h
    · have hne : j ≠ id := fun hh => hidR (hh ▸ h)
      obtain ⟨r, hr, hst⟩ := hI.runningActive j h
      exact ⟨r, by rw [hlookup j hne]; exact hr, hst⟩
    · rw [List.mem_singleton] at h
      subst h
      exact ⟨_, hlookid, rfl⟩
  case q_nodup => exact hI.q_nodup
  case s_nodup => exact nodup_lremove id _ hI.s_nodup
  case r_nodup =>
    show (s.running ++ [id]).Nodup
    rw [List.nodup_append]
    refine ⟨hI.r_nodup, List.nodup_singleton id, ?_⟩
    intro j hj hj2
    rw [List.mem_singleton] at hj2
    subst hj2
    exact hidR hj
  case qsDisj =>
    intro j hj hjs
    exact hI.qsDisj j hj (lremove_subset id j _ hjs)
  case finCompleted => exact hI.finCompleted
  case tsLt =>
    intro j r hj
    by_cases h : j = id
    · subst h
      rw [hlookid] at hj
      cases hj
      exact Nat.lt_succ_of_lt (hI.tsLt j r0 hr0)
    · rw [hlookup j h] at hj
      exact Nat.lt_succ_of_lt (hI.tsLt j r hj)
  case qSorted =>
    have hmap : s.queue.map (tsOf (beginStep s id)) = s.queue.map (tsOf s) := by
      apply List.map_congr_left
      intro j hj
      have hne : j ≠ id := fun hh => hI.qsDisj j hj (hh ▸ hs)
      unfold tsOf
      rw [hlookup j hne]
    have hqq : (beginStep s id).queue = s.queue := rfl
    rw [hqq, hmap]
    exact hI.qSorted
  case activeFields =>
    intro j r hj
    by_cases h : j = id
    · subst h
      rw [hlookid] at hj
      cases hj
      obtain ⟨h1, h2, h3⟩ := hI.activeFields j r0 hr0
      exact ⟨h1, h2, h3⟩
    · rw [hlookup j h] at hj
      exact hI.activeFields j r hj
  case completedErrFields => exact hI.completedErrFields

theorem inv_finishOk (s : QState) (id v : String) (hr : id ∈ s.running) (hI : QInv s) :
    QInv (finishOkStep s id v) := by
  obtain ⟨r0, hlook, hst0⟩ := hI.runningActive id hr
  have hidQ : id ∉ s.queue := running_not_mem_queue hI hr
  have hidS : id ∉ s.spawned := running_not_mem_spawned hI hr
  have hidC : id ∉ keys s.completed := hI.disj id (mem_keys_of_alookup_some hlook)
  have hidF : id ∉ s.finishing := fun hf => hidC (hI.finCompleted id hf)
  have hstep : finishOkStep s id v = { s with
      active := aerase id s.active
      completed := ainsert id
        { r0 with status := Status.completed, response := some v, end_time := some s.now }
        s.completed
      running := lremove id s.running
      finishing := s.finishing ++ [id]
      now := s.now + 1 } := by
    unfold finishOkStep
    rw [hlook]
  have ha2 : (finishOkStep s id v).active = aerase id s.active := by rw [hstep]
  have hc2 : (finishOkStep s id v).completed = ainsert id
      { r0 with status := Status.completed, response := some v, end_time := some s.now }
      s.completed := by rw [hstep]
  have hq2 : (finishOkStep s id v).queue = s.queue := by rw [hstep]
  have hs2 : (finishOkStep s id v).spawned = s.spawned := by rw [hstep]
  have hr2 : (finishOkStep s id v).running = lremove id s.running := by rw [hstep]
  have hf2 : (finishOkStep s id v).finishing = s.finishing ++ [id] := by rw [hstep]
  have hn2 : (finishOkStep s id v).now = s.now + 1 := by rw [hstep]
  have haself : alookup id (aerase id s.active) = none :=
    alookup_aerase_self id s.active hI.a_nodup
  constructor
  case a_nodup =>
    rw [ha2]
    exact nodup_keys_aerase _ _ hI.a_nodup
  case c_nodup =>
    rw [hc2]
    exact nodup_keys_ainsert _ _ _ hI.c_nodup
  case disj =>
    intro j hj
    rw [ha2] at hj
    rw [hc2]
    have hj' := mem_keys_aerase j id _ hj
    have hne : j ≠ id := by
      intro hh
      subst hh
      exact (not_mem_keys_of_alookup_none _ _ haself) hj
    intro hmem
    rcases (mem_keys_ainsert j id _ s.completed).mp hmem with h | h
    · exact hne h
    · exact hI.disj j hj' h
  case activeStatus =>
    intro j r hj
    rw [ha2] at hj
    by_cases h : j = id
    · subst h
      rw [haself] at hj
      cases hj
    · rw [alookup_aerase_ne _ _ _ h] at hj
      exact hI.activeStatus j r hj
  case completedStatus =>
    intro j r hj
    rw [hc2] at hj
    by_cases h : j = id
    · subst h
      rw [alookup_ainsert_self] at hj
      cases hj
      exact Or.inl rfl
    · rw [alookup_ainsert_ne _ _ _ _ h] at hj
      exact hI.completedStatus j r hj
  case queueActive =>
    intro j hj
    rw [hq2] at hj
    obtain ⟨r, hrr, hst⟩ := hI.queueActive j hj
    have hne : j ≠ id := fun hh => hidQ (hh ▸ hj)
    rw [ha2]
    exact ⟨r, by rw [alookup_aerase_ne _ _ _ hne]; exact hrr, hst⟩
  case spawnedActive =>
    intro j hj
    rw [hs2] at hj
    obtain ⟨r, hrr, hst⟩ := hI.spawnedActive j hj
    have hne : j ≠ id := fun hh => hidS (hh ▸ hj)
    rw [ha2]
    exact ⟨r, by rw [alookup_aerase_ne _ _ _ hne]; exact hrr, hst⟩
  case runningActive =>
    intro j hj
    rw [hr2] at hj
    have hjs := lremove_subset id j _ hj
    have hne : j ≠ id := by
      intro hh
      subst hh
      exact not_mem_lremove_self j _ hI.r_nodup hj
    obtain ⟨r, hrr, hst⟩ := hI.runningActive j hjs
    rw [ha2]
    exact ⟨r, by rw [alookup_aerase_ne _ _ _ hne]; exact hrr, hst⟩
  case q_nodup =>
    rw [hq2]
    exact hI.q_nodup
  case s_nodup =>
    rw [hs2]
    exact hI.s_nodup
  case r_nodup =>
    rw [hr2]
    exact nodup_lremove id _ hI.r_nodup
  case qsDisj =>
    intro j hj
    rw [hq2] at hj
    rw [hs2]
    exact hI.qsDisj j hj
  case finCompleted =>
    intro j hj
    rw [hf2] at hj
    rw [hc2]
    rcases List.mem_append.mp hj with h | h
    · exact (mem_keys_ainsert j id _ s.completed).mpr (Or.inr (hI.finCompleted j h))
    · rw [List.mem_singleton] at h
      exact (mem_keys_ainsert j id _ s.completed).mpr (Or.inl h)
  case tsLt =>
    intro j r hj
    rw [ha2] at hj
    rw [hn2]
    by_cases h : j = id
    · subst h
      rw [haself] at hj
      cases hj
    · rw [alookup_aerase_ne _ _ _ h] at hj
      exact Nat.lt_succ_of_lt (hI.tsLt j r hj)
  case qSorted =>
    rw [hq2]
    have hmap : s.queue.map (tsOf (finishOkStep s id v)) = s.queue.map (tsOf s) := by
      apply List.map_congr_left
      intro j hj
      have hne : j ≠ id := fun hh => hidQ (hh ▸ hj)
      unfold tsOf
      rw [ha2, alookup_aerase_ne _ _ _ hne]
    rw [hmap]
    exact hI.qSorted
  case activeFields =>
    intro j r hj
    rw [ha2] at hj
    by_cases h : j = id
    · subst h
      rw [haself] at hj
      cases hj
    · rw [alookup_aerase_ne _ _ _ h] at hj
      exact hI.activeFields j r hj
  case completedErrFields =>
    intro j r hj
    rw [hc2] at hj
    by_cases h : j = id
    · subst h
      rw [alookup_ainsert_self] at hj
      cases hj
      intro herr
      exact absurd herr (by simp)
    · rw [alookup_ainsert_ne _ _ _ _ h] at hj
      exact hI.completedErrFields j r hj

theorem inv_finishErr (s : QState) (id msg : String) (hr : id ∈ s.running) (hI : QInv s) :
    QInv (finishErrStep s id msg) := by
  obtain ⟨r0, hlook, hst0⟩ := hI.runningActive id hr
  have hidQ : id ∉ s.queue := running_not_mem_queue hI hr
  have hidS : id ∉ s.spawned := running_not_mem_spawned hI hr
  have hidC : id ∉ keys s.completed := hI.disj id (mem_keys_of_alookup_some hlook)
  have hidF : id ∉ s.finishing := fun hf => hidC (hI.finCompleted id hf)
  have hstep : finishErrStep s id msg = { s with
      active := aerase id s.active
      completed := ainsert id
        { r0 with status := Status.error, error := some msg } s.completed
      running := lremove id s.running
      finishing := s.finishing ++ [id]
      now := s.now + 1 } := by
    unfold finishErrStep
    rw [hlook]
  have ha2 : (finishErrStep s id msg).active = aerase id s.active := by rw [hstep]
  have hc2 : (finishErrStep s id msg).completed = ainsert id
      { r0 with status := Status.error, error := some msg } s.completed := by rw [hstep]
  have hq2 : (finishErrStep s id msg).queue = s.queue := by rw [hstep]
  have hs2 : (finishErrStep s id msg).spawned = s.spawned := by rw [hstep]
  have hr2 : (finishErrStep s id msg).running = lremove id s.running := by rw [hstep]
  have hf2 : (finishErrStep s id msg).finishing = s.finishing ++ [id] := by rw [hstep]
  have hn2 : (finishErrStep s id msg).now = s.now + 1 := by rw [hstep]
  have haself : alookup id (aerase id s.active) = none :=
    alookup_aerase_self id s.active hI.a_nodup
  constructor
  case a_nodup =>
    rw [ha2]
    exact nodup_keys_aerase _ _ hI.a_nodup
  case c_nodup =>
    rw [hc2]
    exact nodup_keys_ainsert _ _ _ hI.c_nodup
  case disj =>
    intro j hj
    rw [ha2] at hj
    rw [hc2]
    have hj' := mem_keys_aerase j id _ hj
    have hne : j ≠ id := by
      intro hh
      subst hh
      exact (not_mem_keys_of_alookup_none _ _ haself) hj
    intro hmem
    rcases (mem_keys_ainsert j id _ s.completed).mp hmem with h | h
    · exact hne h
    · exact hI.disj j hj' h
  case activeStatus =>
    intro j r hj
    rw [ha2] at hj
    by_cases h : j = id
    · subst h
      rw [haself] at hj
      cases hj
    · rw [alookup_aerase_ne _ _ _ h] at hj
      exact hI.activeStatus j r hj
  case completedStatus =>
    intro j r hj
    rw [hc2] at hj
    by_cases h : j = id
    · subst h
      rw [alookup_ainsert_self] at hj
      cases hj
      exact Or.inr rfl
    · rw [alookup_ainsert_ne _ _ _ _ h] at hj
      exact hI.completedStatus j r hj
  case queueActive =>
    intro j hj
    rw [hq2] at hj
    obtain ⟨r, hrr, hst⟩ := hI.queueActive j hj
    have hne : j ≠ id := fun hh => hidQ (hh ▸ hj)
    rw [ha2]
    exact ⟨r, by rw [alookup_aerase_ne _ _ _ hne]; exact hrr, hst⟩
  case spawnedActive =>
    intro j hj
    rw [hs2] at hj
    obtain ⟨r, hrr, hst⟩ := hI.spawnedActive j hj
    have hne : j ≠ id := fun hh => hidS (hh ▸ hj)
    rw [ha2]
    exact ⟨r, by rw [alookup_aerase_ne _ _ _ hne]; exact hrr, hst⟩
  case runningActive =>
    intro j hj
    rw [hr2] at hj
    have hjs := lremove_subset id j _ hj
    have hne : j ≠ id := by
      intro hh
      subst hh
      exact not_mem_lremove_self j _ hI.r_nodup hj
    obtain ⟨r, hrr, hst⟩ := hI.runningActive j hjs
    rw [ha2]
    exact ⟨r, by rw [alookup_aerase_ne _ _ _ hne]; exact hrr, hst⟩
  case q_nodup =>
    rw [hq2]
    exact hI.q_nodup
  case s_nodup =>
    rw [hs2]
    exact hI.s_nodup
  case r_nodup =>
    rw [hr2]
    exact nodup_lremove id _ hI.r_nodup
  case qsDisj =>
    intro j hj
    rw [hq2] at hj
    rw [hs2]
    exact hI.qsDisj j hj
  case finCompleted =>
    intro j hj
    rw [hf2] at hj
    rw [hc2]
    rcases List.mem_append.mp hj with h | h
    · exact (mem_keys_ainsert j id _ s.completed).mpr (Or.inr (hI.finCompleted j h))
    · rw [List.mem_singleton] at h
      exact (mem_keys_ainsert j id _ s.completed).mpr (Or.inl h)
  case tsLt =>
    intro j r hj
    rw [ha2] at hj
    rw [hn2]
    by_cases h : j = id
    · subst h
      rw [haself] at hj
      cases hj
    · rw [alookup_aerase_ne _ _ _ h] at hj
      exact Nat.lt_succ_of_lt (hI.tsLt j r hj)
  case qSorted =>
    rw [hq2]
    have hmap : s.queue.map (tsOf (finishErrStep s id msg)) = s.queue.map (tsOf s) := by
      apply List.map_congr_left
      intro j hj
      have hne : j ≠ id := fun hh => hidQ (hh ▸ hj)
      unfold tsOf
      rw [ha2, alookup_aerase_ne _ _ _ hne]
    rw [hmap]
    exact hI.qSorted
  case activeFields =>
    intro j r hj
    rw [ha2] at hj
    by_cases h : j = id
    · subst h
      rw [haself] at hj
      cases hj
    · rw [alookup_aerase_ne _ _ _ h] at hj
      exact hI.activeFields j r hj
  case completedErrFields =>
    intro j r hj
    rw [hc2] at hj
    by_cases h : j = id
    · rw [h] at hj
      rw [alookup_ainsert_self] at hj
      cases hj
      intro herr
      obtain ⟨h1, h2, h3⟩ := hI.activeFields id r0 hlook
      exact ⟨h2, h1⟩
    · rw [alookup_ainsert_ne _ _ _ _ h] at hj
      exact hI.completedErrFields j r hj

theorem inv_cleanup (s : QState) (id : String) (_hf : id ∈ s.finishing) (hI : QInv s) :
    QInv (cleanupStep s id) := by
  constructor
  case a_nodup => exact hI.a_nodup
  case c_nodup => exact hI.c_nodup
  case disj => exact hI.disj
  case activeStatus => exact hI.activeStatus
  case completedStatus => exact hI.completedStatus
  case queueActive => exact hI.queueActive
  case spawnedActive => exact hI.spawnedActive
  case runningActive => exact hI.runningActive
  case q_nodup => exact hI.q_nodup
  case s_nodup => exact hI.s_nodup
  case r_nodup => exact hI.r_nodup
  case qsDisj => exact hI.qsDisj
  case finCompleted =>
    intro j hj
    exact hI.finCompleted j (lremove_subset id j _ hj)
  case tsLt =>
    intro j r hj
    exact Nat.lt_succ_of_lt (hI.tsLt j r hj)
  case qSorted => exact hI.qSorted
  case activeFields => exact hI.activeFields
  case completedErrFields => exact hI.completedErrFields

/-- Every step preserves the invariant. -/
theorem inv_step {s s2 : QState} (hI : QInv s) (h : Step s s2) : QInv s2 := by
  cases h with
  | submit id query hf => exact inv_submit s id query hf hI
  | dispatch hc hq => exact inv_dispatch s hI
  | begin_ id hs => exact inv_begin s id hs hI
  | finishOk id v hr => exact inv_finishOk s id v hr hI
  | finishErr id msg hr => exact inv_finishErr s id msg hr hI
  | cleanup id hf => exact inv_cleanup s id hf hI

/-- Every reachable state satisfies the invariant. -/
theorem reach_inv {n : Nat} {s : QState} (h : Reach n s) : QInv s := by
  induction h with
  | init => exact inv_init n
  | step hr hs ih => exact inv_step ih hs

/-! ### Projection and query helper lemmas -/

theorem grs_completed {s : QState} {id : String} {r : TaskRec}
    (h : alookup id s.completed = some r) : get_request_status s id = some r := by
  unfold get_request_status
  rw [h]

theorem grs_active {s : QState} {id : String} (h : alookup id s.completed = none) :
    get_request_status s id = alookup id s.active := by
  unfold get_request_status
  rw [h]

theorem statusOf_active {s : QState} (hI : QInv s) {id : String} {r : TaskRec}
    (h : alookup id s.active = some r) : statusOf s id = some r.status := by
  have hc : alookup id s.completed = none :=
    alookup_eq_none_of_not_mem _ _ (hI.disj id (mem_keys_of_alookup_some h))
  unfold statusOf
  rw [grs_active hc, h]
  rfl

theorem dispatch_active (s : QState) : (dispatchStep s).active = s.active := by
  cases hq : s.queue with
  | nil =>
    unfold dispatchStep
    rw [hq]
  | cons h t =>
    unfold dispatchStep
    rw [hq]

theorem dispatch_completed (s : QState) : (dispatchStep s).completed = s.completed := by
  cases hq : s.queue with
  | nil =>
    unfold dispatchStep
    rw [hq]
  | cons h t =>
    unfold dispatchStep
    rw [hq]

theorem grs_dispatch (s : QState) (id : String) :
    get_request_status (dispatchStep s) id = get_request_status s id := by
  unfold get_request_status
  rw [dispatch_active, dispatch_completed]

theorem finishOk_proj (s : QState) (id v : String) (r : TaskRec)
    (h : alookup id s.active = some r) :
    finishOkStep s id v = { s with
      active := aerase id s.active
      completed := ainsert id
        { r with status := Status.completed, response := some v, end_time := some s.now }
        s.completed
      running := lremove id s.running
      finishing := s.finishing ++ [id]
      now := s.now + 1 } := by
  unfold finishOkStep
  rw [h]

theorem finishErr_proj (s : QState) (id msg : String) (r : TaskRec)
    (h : alookup id s.active = some r) :
    finishErrStep s id msg = { s with
      active := aerase id s.active
      completed := ainsert id
        { r with status := Status.error, error := some msg } s.completed
      running := lremove id s.running
      finishing := s.finishing ++ [id]
      now := s.now + 1 } := by
  unfold finishErrStep
  rw [h]

theorem gqp_none {s : QState} {id : String} (h : alookup id s.active = none) :
    get_queue_position s id = -1 := by
  unfold get_queue_position
  rw [h]

theorem gqp_processing {s : QState} {id : String} {r : TaskRec}
    (h : alookup id s.active = some r) (hst : r.status = Status.processing) :
    get_queue_position s id = 0 := by
  unfold get_queue_position
  rw [h]
  simp [hst]

theorem gqp_queued_some {s : QState} {id : String} {r : TaskRec} {i : Nat}
    (h : alookup id s.active = some r) (hst : r.status = Status.queued)
    (hp : posIn id s.queue = some i) :
    get_queue_position s id = (i : Int) + (s.current_processing : Int) := by
  unfold get_queue_position
  rw [h]
  simp [hst, hp]

theorem gqp_queued_none {s : QState} {id : String} {r : TaskRec}
    (h : alookup id s.active = some r) (hst : r.status = Status.queued)
    (hp : posIn id s.queue = none) :
    get_queue_position s id = -1 := by
  unfold get_queue_position
  rw [h]
  simp [hst, hp]

/-! ### Concrete traces used by witnesses and counterexamples -/

/-- One task `a` submitted to a fresh queue with `max_concurrent = 1`. -/
def exS1 : QState := submitStep (initState 1) "a" "q"

/-- Two tasks `a`, `b` submitted in that order. -/
def exS2 : QState := submitStep exS1 "b" "p"

/-- After one dispatcher iteration popping `a` (its thread not yet begun). -/
def exD1 : QState := dispatchStep exS2

/-- After a second dispatcher iteration popping `b` while `current_processing`
is still 0 — the racy double dispatch the source admits. -/
def exD2 : QState := dispatchStep exD1

/-- The execution unit of `a` runs its first locked block. -/
def exB1 : QState := beginStep exD2 "a"

/-- The execution unit of `b` runs its first locked block: two records are now
`processing` although `max_concurrent = 1`. -/
def exB2 : QState := beginStep exB1 "b"

/-- One submitted task `a`, dispatched. -/
def exDa : QState := dispatchStep exS1

/-- One submitted task `a`, dispatched and begun (status `processing`). -/
def exRun : QState := beginStep exDa "a"

/-- The single running task fails with message `boom`. -/
def exErr : QState := finishErrStep exRun "a" "boom"

theorem reach_exS1 : Reach 1 exS1 :=
  Reach.step Reach.init (Step.submit _ "a" "q" (by decide))

theorem reach_exS2 : Reach 1 exS2 :=
  Reach.step reach_exS1 (Step.submit _ "b" "p" (by decide))

theorem reach_exD1 : Reach 1 exD1 :=
  Reach.step reach_exS2 (Step.dispatch _ (by decide) (by decide))

theorem reach_exD2 : Reach 1 exD2 :=
  Reach.step reach_exD1 (Step.dispatch _ (by decide) (by decide))

theorem reach_exB1 : Reach 1 exB1 :=
  Reach.step reach_exD2 (Step.begin_ _ "a" (by decide))

theorem reach_exB2 : Reach 1 exB2 :=
  Reach.step reach_exB1 (Step.begin_ _ "b" (by decide))

theorem reach_exDa : Reach 1 exDa :=
  Reach.step reach_exS1 (Step.dispatch _ (by decide) (by decide))

theorem reach_exRun : Reach 1 exRun :=
  Reach.step reach_exDa (Step.begin_ _ "a" (by decide))

theorem reach_exErr : Reach 1 exErr :=
  Reach.step reach_exRun (Step.finishErr _ "a" "boom" (by decide))

theorem a_mem_exRun_running : "a" ∈ exRun.running := by decide

/-! ### The three-task `max_concurrent = 1` scenario of the spec -/

def scT1 : QState := submitStep (initState 1) "T1" "q1"
def scT2 : QState := submitStep scT1 "T2" "q2"
def scT3 : QState := submitStep scT2 "T3" "q3"
def scD1 : QState := dispatchStep scT3
def scB1 : QState := beginStep scD1 "T1"
def scF1 : QState := finishOkStep scB1 "T1" "Q1"
def scG1 : QState := cleanupStep scF1 "T1"
def scD2 : QState := dispatchStep scG1
def scB2 : QState := beginStep scD2 "T2"
def scF2 : QState := finishOkStep scB2 "T2" "Q2"
def scG2 : QState := cleanupStep scF2 "T2"
def scD3 : QState := dispatchStep scG2
def scB3 : QState := beginStep scD3 "T3"
def scF3 : QState := finishOkStep scB3 "T3" "Q3"
def scG3 : QState := cleanupStep scF3 "T3"

theorem reach_scD1 : Reach 1 scD1 :=
  Reach.step (Reach.step (Reach.step (Reach.step Reach.init
    (Step.submit _ "T1" "q1" (by decide)))
    (Step.submit _ "T2" "q2" (by decide)))
    (Step.submit _ "T3" "q3" (by decide)))
    (Step.dispatch _ (by decide) (by decide))

theorem reach_scD2 : Reach 1 scD2 :=
  Reach.step (Reach.step (Reach.step (Reach.step reach_scD1
    (Step.begin_ _ "T1" (by decide)))
    (Step.finishOk _ "T1" "Q1" (by decide)))
    (Step.cleanup _ "T1" (by decide)))
    (Step.dispatch _ (by decide) (by decide))

theorem reach_scD3 : Reach 1 scD3 :=
  Reach.step (Reach.step (Reach.step (Reach.step reach_scD2
    (Step.begin_ _ "T2" (by decide)))
    (Step.finishOk _ "T2" "Q2" (by decide)))
    (Step.cleanup _ "T2" (by decide)))
    (Step.dispatch _ (by decide) (by decide))

theorem reach_scG3 : Reach 1 scG3 :=
  Reach.step (Reach.step (Reach.step reach_scD3
    (Step.begin_ _ "T3" (by decide)))
    (Step.finishOk _ "T3" "Q3" (by decide)))
    (Step.cleanup _ "T3" (by decide))

/-! ### Lookup operations with the instance state threaded through

The three lookup methods are transcribed once more with the mutable `self`
passed in and returned, so that the absence of writes to the four shared
structures is itself a provable statement rather than a modelling choice. -/

/-- Method `get_request_status` (lines 64-76) with `self` threaded: the body reads
`completed_requests` and `active_requests` and writes nothing. -/
def get_request_statusW (s : QState) (id : String) : Option TaskRec × QState :=
  (match alookup id s.completed with
   | some r => some r
   | none => alookup id s.active, s)

/-- Method `get_queue_position` (lines 78-102) with `self` threaded: the body reads
`active_requests`, the backlog snapshot and `current_processing`, and writes
nothing. -/
def get_queue_positionW (s : QState) (id : String) : Int × QState :=
  (match alookup id s.active with
   | none => -1
   | some r =>
     if r.status = Status.processing then 0
     else if r.status = Status.queued then
       match posIn id s.queue with
       | some i => (i : Int) + (s.current_processing : Int)
       | none => -1
     else -1, s)

/-- Method `get_queue_stats` (lines 104-117) with `self` threaded: the body reads all
four shared structures and writes nothing. -/
def get_queue_statsW (s : QState) : QStats × QState :=
  ({ queue_size := s.queue.length
     active_count := s.active.length
     processing_count := s.current_processing
     max_concurrent := s.max_concurrent }, s)

/-! ### The claims -/

/-- Claim C1 (code bug in source): the property "at most `max_concurrent`
records are in `processing` at any instant" FAILS on the code.  The dispatcher
(line 123) reads `current_processing` before popping, but the increment
happens only later inside the spawned thread (line 143), so two dispatcher
iterations can both see the counter below the limit.  This theorem exhibits a
reachable state of a `max_concurrent = 1` queue with two records
simultaneously in `processing` status. -/
theorem C1_concurrency_limit_violated :
    Reach 1 exB2 ∧ exB2.max_concurrent = 1 ∧ processingCount exB2 = 2 :=
  ⟨reach_exB2, by decide, by decide⟩

/-- Claim C2 (confirmed): FIFO dispatch.  In every reachable state, a dispatch
step pops exactly the head of the backlog, and the submission timestamp of the head
is minimal among all tasks currently in the backlog, so the earliest-submitted
currently-queued task is always the next one dispatched. -/
theorem C2_fifo_dispatch (n : Nat) (s : QState) (hs : Reach n s) (h0 : String)
    (t : List String) (hq : s.queue = h0 :: t) :
    (dispatchStep s).queue = t ∧
    (dispatchStep s).spawned = s.spawned ++ [h0] ∧
    ∀ j, j ∈ s.queue → ∀ rh rj, alookup h0 s.active = some rh →
      alookup j s.active = some rj → rh.timestamp ≤ rj.timestamp := by
  have hI := reach_inv hs
  refine ⟨?_, ?_, ?_⟩
  · unfold dispatchStep
    rw [hq]
  · unfold dispatchStep
    rw [hq]
  · intro j hj rh rj hrh hrj
    rw [hq, List.mem_cons] at hj
    rcases hj with h | h
    · subst h
      rw [hrh] at hrj
      cases hrj
      exact le_refl _
    · have hpair := hI.qSorted
      rw [hq, List.map_cons] at hpair
      have hlt := (List.pairwise_cons.mp hpair).1 _ (List.mem_map_of_mem _ h)
      have e1 : tsOf s h0 = rh.timestamp := by
        unfold tsOf
        rw [hrh]
        rfl
      have e2 : tsOf s j = rj.timestamp := by
        unfold tsOf
        rw [hrj]
        rfl
      rw [e1, e2] at hlt
      exact le_of_lt hlt

/-- Witness for C2 at the concrete two-task state: `a` was submitted before
`b`, both are queued, and dispatch pops `a`. -/
theorem C2_fifo_dispatch_witness :
    (dispatchStep exS2).queue = ["b"] ∧
    (dispatchStep exS2).spawned = exS2.spawned ++ ["a"] ∧
    ∀ j, j ∈ exS2.queue → ∀ rh rj, alookup "a" exS2.active = some rh →
      alookup j exS2.active = some rj → rh.timestamp ≤ rj.timestamp :=
  C2_fifo_dispatch 1 exS2 reach_exS2 "a" ["b"] (by decide)

/-- Claim C9 (confirmed): `get_queue_stats` snapshots the backlog size, the
processing counter and the configured limit; in the three-task
`max_concurrent = 1` scenario the reported backlog size is 2, 1, 0 at the three
successive dispatch steps, and the tasks complete in submission order
(strictly increasing `end_time` stamps 5 < 9 < 13). -/
theorem C9_stats_scenario :
    Reach 1 scD1 ∧ get_queue_stats scD1 =
      { queue_size := 2, active_count := 3, processing_count := 0, max_concurrent := 1 } ∧
    Reach 1 scD2 ∧ (get_queue_stats scD2).queue_size = 1 ∧
    Reach 1 scD3 ∧ (get_queue_stats scD3).queue_size = 0 ∧
    Reach 1 scG3 ∧
    (get_request_status scG3 "T1").map (·.status) = some Status.completed ∧
    (get_request_status scG3 "T2").map (·.status) = some Status.completed ∧
    (get_request_status scG3 "T3").map (·.status) = some Status.completed ∧
    (get_request_status scG3 "T1").map (·.response) = some (some "Q1") ∧
    (get_request_status scG3 "T1").map (·.end_time) = some (some 5) ∧
    (get_request_status scG3 "T2").map (·.end_time) = some (some 9) ∧
    (get_request_status scG3 "T3").map (·.end_time) = some (some 13) :=
  ⟨reach_scD1, by decide, reach_scD2, by decide, reach_scD3, by decide, reach_scG3,
   by decide, by decide, by decide, by decide, by decide, by decide, by decide⟩

/-- Claim C10 (confirmed): the three lookup operations leave the whole state —
backlog, live map, finished map and processing counter — unchanged, and return
the same values as their pure readings. -/
theorem C10_lookups_pure (s : QState) (id : String) :
    (get_request_statusW s id).2 = s ∧
    (get_queue_positionW s id).2 = s ∧
    (get_queue_statsW s).2 = s ∧
    (get_request_statusW s id).1 = get_request_status s id ∧
    (get_queue_positionW s id).1 = get_queue_position s id ∧
    (get_queue_statsW s).1 = get_queue_stats s :=
  ⟨rfl, rfl, rfl, rfl, rfl, rfl⟩

/-- The status evolutions a single step may produce for one id: unchanged,
record creation (`none` to `queued`), or one edge of the chain
`queued → processing → (completed | error)`. -/
def statusStepOk : Option Status → Option Status → Prop
  | none, none => True
  | none, some Status.queued => True
  | some a, some b => a = b ∨ (a = Status.queued ∧ b = Status.processing) ∨
      (a = Status.processing ∧ (b = Status.completed ∨ b = Status.error))
  | _, _ => False

theorem statusStepOk_refl (x : Option Status) : statusStepOk x x := by
  cases x with
  | none => trivial
  | some a => exact Or.inl rfl

/-- Claim C3 (confirmed): across any single step of any operation, the observed status of each id either stays put, appears as `queued`, or moves one edge along
`queued → processing → (completed | error)`; in particular a terminal status
never changes, so repeated polls after termination observe the same status. -/
theorem C3_status_transitions (n : Nat) (s s2 : QState) (hs : Reach n s)
    (hstep : Step s s2) (id : String) :
    statusStepOk (statusOf s id) (statusOf s2 id) ∧
    ((statusOf s id = some Status.completed ∨ statusOf s id = some Status.error) →
      statusOf s2 id = statusOf s id) := by
  have hI := reach_inv hs
  have hmain : statusStepOk (statusOf s id) (statusOf s2 id) := by
    cases hstep with
    | submit id2 q hf =>
      by_cases h : id = id2
      · subst h
        have h1 : statusOf s id = none := by
          unfold statusOf
          rw [grs_active hf.2, hf.1]
          rfl
        have h2 : statusOf (submitStep s id q) id = some Status.queued := by
          unfold statusOf
          have hc : alookup id (submitStep s id q).completed = none := hf.2
          rw [grs_active hc]
          have hax : alookup id (submitStep s id q).active =
              some { query := q, timestamp := s.now, status := Status.queued } := by
            show alookup id (ainsert id _ s.active) = _
            rw [alookup_ainsert_self]
          rw [hax]
          rfl
        rw [h1, h2]
        trivial
      · have heq : statusOf (submitStep s id2 q) id = statusOf s id := by
          unfold statusOf get_request_status
          have ha : alookup id (submitStep s id2 q).active = alookup id s.active := by
            show alookup id (ainsert id2 _ s.active) = _
            rw [alookup_ainsert_ne _ _ _ _ h]
          rw [show (submitStep s id2 q).completed = s.completed from rfl, ha]
        rw [heq]
        exact statusStepOk_refl _
    | dispatch hc hq =>
      have heq : statusOf (dispatchStep s) id = statusOf s id := by
        unfold statusOf
        rw [grs_dispatch]
      rw [heq]
      exact statusStepOk_refl _
    | begin_ id2 hsp =>
      obtain ⟨r0, hr0, hst0⟩ := hI.spawnedActive id2 hsp
      by_cases h : id = id2
      · subst h
        have h1 : statusOf s id = some Status.queued := by
          rw [statusOf_active hI hr0, hst0]
        have hI2 : QInv (beginStep s id) := inv_begin s id hsp hI
        have hl2 : alookup id (beginStep s id).active =
            some { r0 with status := Status.processing, start_time := some s.now } := by
          show alookup id (aupdate id _ s.active) = _
          rw [alookup_aupdate_self, hr0]
          rfl
        have h2 : statusOf (beginStep s id) id = some Status.processing := by
          rw [statusOf_active hI2 hl2]
        rw [h1, h2]
        exact Or.inr (Or.inl ⟨rfl, rfl⟩)
      · have heq : statusOf (beginStep s id2) id = statusOf s id := by
          unfold statusOf get_request_status
          have ha : alookup id (beginStep s id2).active = alookup id s.active := by
            show alookup id (aupdate id2 _ s.active) = _
            rw [alookup_aupdate_ne _ _ _ _ h]
          rw [show (beginStep s id2).completed = s.completed from rfl, ha]
        rw [heq]
        exact statusStepOk_refl _
    | finishOk id2 v hr =>
      obtain ⟨r0, hr0, hst0⟩ := hI.runningActive id2 hr
      have hproj := finishOk_proj s id2 v r0 hr0
      by_cases h : id = id2
      · subst h
        have h1 : statusOf s id = some Status.processing := by
          rw [statusOf_active hI hr0, hst0]
        have hcl : alookup id (finishOkStep s id v).completed =
            some { r0 with status := Status.completed, response := some v, end_time := some s.now } := by
          rw [hproj]
          show alookup id (ainsert id _ s.completed) = _
          rw [alookup_ainsert_self]
        have h2 : statusOf (finishOkStep s id v) id = some Status.completed := by
          unfold statusOf
          rw [grs_completed hcl]
          rfl
        rw [h1, h2]
        exact Or.inr (Or.inr ⟨rfl, Or.inl rfl⟩)
      · have heq : statusOf (finishOkStep s id2 v) id = statusOf s id := by
          unfold statusOf get_request_status
          have hcl : alookup id (finishOkStep s id2 v).completed =
              alookup id s.completed := by
            rw [hproj]
            show alookup id (ainsert id2 _ s.completed) = _
            rw [alookup_ainsert_ne _ _ _ _ h]
          have hac : alookup id (finishOkStep s id2 v).active = alookup id s.active := by
            rw [hproj]
            show alookup id (aerase id2 s.active) = _
            rw [alookup_aerase_ne _ _ _ h]
          rw [hcl, hac]
        rw [heq]
        exact statusStepOk_refl _
    | finishErr id2 msg hr =>
      obtain ⟨r0, hr0, hst0⟩ := hI.runningActive id2 hr
      have hproj := finishErr_proj s id2 msg r0 hr0
      by_cases h : id = id2
      · subst h
        have h1 : statusOf s id = some Status.processing := by
          rw [statusOf_active hI hr0, hst0]
        have hcl : alookup id (finishErrStep s id msg).completed =
            some { r0 with status := Status.error, error := some msg } := by
          rw [hproj]
          show alookup id (ainsert id _ s.completed) = _
          rw [alookup_ainsert_self]
        have h2 : statusOf (finishErrStep s id msg) id = some Status.error := by
          unfold statusOf
          rw [grs_completed hcl]
          rfl
        rw [h1, h2]
        exact Or.inr (Or.inr ⟨rfl, Or.inr rfl⟩)
      · have heq : statusOf (finishErrStep s id2 msg) id = statusOf s id := by
          unfold statusOf get_request_status
          have hcl : alookup id (finishErrStep s id2 msg).completed =
              alookup id s.completed := by
            rw [hproj]
            show alookup id (ainsert id2 _ s.completed) = _
            rw [alookup_ainsert_ne _ _ _ _ h]
          have hac : alookup id (finishErrStep s id2 msg).active =
              alookup id s.active := by
            rw [hproj]
            show alookup id (aerase id2 s.active) = _
            rw [alookup_aerase_ne _ _ _ h]
          rw [hcl, hac]
        rw [heq]
        exact statusStepOk_refl _
    | cleanup id2 hf =>
      have heq : statusOf (cleanupStep s id2) id = statusOf s id := rfl
      rw [heq]
      exact statusStepOk_refl _
  refine ⟨hmain, ?_⟩
  have hfix : ∀ a : Status, statusOf s id = some a →
      (∀ b, statusOf s2 id = some b →
        (a = b ∨ (a = Status.queued ∧ b = Status.processing) ∨
          (a = Status.processing ∧ (b = Status.completed ∨ b = Status.error)))) ∧
      (statusOf s2 id = none → False) := by
    intro a ha
    constructor
    · intro b hb
      rw [ha, hb] at hmain
      exact hmain
    · intro hb
      rw [ha, hb] at hmain
      exact hmain
  intro hterm
  rcases hterm with ht | ht
  · cases hb : statusOf s2 id with
    | none => exact ((hfix _ ht).2 hb).elim
    | some c =>
      rcases (hfix _ ht).1 c hb with h | h | h
      · rw [ht, ← h]
      · exact absurd h.1 (by simp)
      · exact absurd h.1 (by simp)
  · cases hb : statusOf s2 id with
    | none => exact ((hfix _ ht).2 hb).elim
    | some c =>
      rcases (hfix _ ht).1 c hb with h | h | h
      · rw [ht, ← h]
      · exact absurd h.1 (by simp)
      · exact absurd h.1 (by simp)

/-- Witness for C3 at the concrete step submitting `b` after `a`: the observed
status of `a` satisfies the one-step transition relation. -/
theorem C3_status_transitions_witness :
    statusStepOk (statusOf exS1 "a") (statusOf exS2 "a") ∧
    ((statusOf exS1 "a" = some Status.completed ∨ statusOf exS1 "a" = some Status.error) →
      statusOf exS2 "a" = statusOf exS1 "a") :=
  C3_status_transitions 1 exS1 exS2 reach_exS1 (Step.submit exS1 "b" "p" (by decide)) "a"

/-- Claim C5 (confirmed): when the work function of a running task raises with
message `msg`, the finishing step records status `error` and the message
verbatim in the record of that task, and leaves the observable record of every other id,
the backlog and the spawned units untouched — the failure is fully contained. -/
theorem C5_error_contained (n : Nat) (s : QState) (hs : Reach n s) (id msg : String)
    (hr : id ∈ s.running) :
    (∃ r, get_request_status (finishErrStep s id msg) id = some r ∧
      r.status = Status.error ∧ r.error = some msg) ∧
    (∀ j, j ≠ id → get_request_status (finishErrStep s id msg) j = get_request_status s j) ∧
    (finishErrStep s id msg).queue = s.queue ∧
    (finishErrStep s id msg).spawned = s.spawned := by
  have hI := reach_inv hs
  obtain ⟨r0, hr0, hst0⟩ := hI.runningActive id hr
  have hproj := finishErr_proj s id msg r0 hr0
  refine ⟨?_, ?_, by rw [hproj], by rw [hproj]⟩
  · have hcl : alookup id (finishErrStep s id msg).completed =
        some { r0 with status := Status.error, error := some msg } := by
      rw [hproj]
      show alookup id (ainsert id _ s.completed) = _
      rw [alookup_ainsert_self]
    exact ⟨_, grs_completed hcl, rfl, rfl⟩
  · intro j hj
    unfold get_request_status
    have hcl : alookup j (finishErrStep s id msg).completed = alookup j s.completed := by
      rw [hproj]
      show alookup j (ainsert id _ s.completed) = _
      rw [alookup_ainsert_ne _ _ _ _ hj]
    have hac : alookup j (finishErrStep s id msg).active = alookup j s.active := by
      rw [hproj]
      show alookup j (aerase id s.active) = _
      rw [alookup_aerase_ne _ _ _ hj]
    rw [hcl, hac]

/-- Witness for C5: the single running task `a` fails with message `boom`. -/
theorem C5_error_contained_witness :
    (∃ r, get_request_status (finishErrStep exRun "a" "boom") "a" = some r ∧
      r.status = Status.error ∧ r.error = some "boom") ∧
    (∀ j, j ≠ "a" → get_request_status (finishErrStep exRun "a" "boom") j =
      get_request_status exRun j) ∧
    (finishErrStep exRun "a" "boom").queue = exRun.queue ∧
    (finishErrStep exRun "a" "boom").spawned = exRun.spawned :=
  C5_error_contained 1 exRun reach_exRun "a" "boom" a_mem_exRun_running

/-- Claim C6 (counterexample): the claim says the failure path sets `ended_at`
just as the success path does, but in the reachable state where task `a` has
failed with `boom` the `end_time` of the finished record is absent — the except
block (lines 162-166) never stamps it. -/
theorem C6_end_time_counterexample :
    Reach 1 exErr ∧
    (get_request_status exErr "a").map (·.status) = some Status.error ∧
    (get_request_status exErr "a").map (·.end_time) = some none :=
  ⟨reach_exErr, by decide, by decide⟩

/-- Claim C6 (amended): on failure the execution unit sets status `error`,
stores the error text and moves the record from the live map to the finished
map, but — unlike the success path, which stamps `end_time` — it leaves
`end_time` unset. -/
theorem C6_error_path_record (n : Nat) (s : QState) (hs : Reach n s) (id msg : String)
    (hr : id ∈ s.running) :
    (∃ r, alookup id (finishErrStep s id msg).completed = some r ∧
      r.status = Status.error ∧ r.error = some msg ∧ r.end_time = none ∧
      alookup id (finishErrStep s id msg).active = none) ∧
    (∀ v, ∃ r2, alookup id (finishOkStep s id v).completed = some r2 ∧
      r2.status = Status.completed ∧ r2.end_time = some s.now) := by
  have hI := reach_inv hs
  obtain ⟨r0, hr0, hst0⟩ := hI.runningActive id hr
  obtain ⟨hend, hresp, herrf⟩ := hI.activeFields id r0 hr0
  constructor
  · have hproj := finishErr_proj s id msg r0 hr0
    refine ⟨{ r0 with status := Status.error, error := some msg }, ?_, rfl, rfl, hend, ?_⟩
    · rw [hproj]
      show alookup id (ainsert id _ s.completed) = _
      rw [alookup_ainsert_self]
    · rw [hproj]
      show alookup id (aerase id s.active) = none
      exact alookup_aerase_self id s.active hI.a_nodup
  · intro v
    have hproj := finishOk_proj s id v r0 hr0
    refine ⟨{ r0 with status := Status.completed, response := some v, end_time := some s.now },
      ?_, rfl, rfl⟩
    rw [hproj]
    show alookup id (ainsert id _ s.completed) = _
    rw [alookup_ainsert_self]

/-- Witness for the amended C6 at the single-running-task state. -/
theorem C6_error_path_record_witness :
    (∃ r, alookup "a" (finishErrStep exRun "a" "boom").completed = some r ∧
      r.status = Status.error ∧ r.error = some "boom" ∧ r.end_time = none ∧
      alookup "a" (finishErrStep exRun "a" "boom").active = none) ∧
    (∀ v, ∃ r2, alookup "a" (finishOkStep exRun "a" v).completed = some r2 ∧
      r2.status = Status.completed ∧ r2.end_time = some exRun.now) :=
  C6_error_path_record 1 exRun reach_exRun "a" "boom" a_mem_exRun_running

/-- Claim C7 (confirmed): in every reachable state a stored `response` implies
status `completed` (the result is present only for completed tasks), and when
the work function of a running task returns `v`, the finishing step makes
`status(id)` return a `completed` record whose stored result is exactly `v`. -/
theorem C7_result_roundtrip (n : Nat) (s : QState) (hs : Reach n s) :
    (∀ id r, get_request_status s id = some r → r.response.isSome →
      r.status = Status.completed) ∧
    (∀ id v, id ∈ s.running →
      ∃ r, get_request_status (finishOkStep s id v) id = some r ∧
        r.status = Status.completed ∧ r.response = some v) := by
  have hI := reach_inv hs
  constructor
  · intro id r hgrs hsome
    unfold get_request_status at hgrs
    cases hc : alookup id s.completed with
    | some rc =>
      rw [hc] at hgrs
      replace hgrs := Option.some.inj hgrs
      rw [hgrs] at hc
      rcases hI.completedStatus id r hc with h | h
      · exact h
      · have := (hI.completedErrFields id r hc h).1
        rw [this] at hsome
        simp at hsome
    | none =>
      rw [hc] at hgrs
      replace hgrs : alookup id s.active = some r := hgrs
      have := (hI.activeFields id r hgrs).2.1
      rw [this] at hsome
      simp at hsome
  · intro id v hr
    obtain ⟨r0, hr0, hst0⟩ := hI.runningActive id hr
    have hproj := finishOk_proj s id v r0 hr0
    have hcl : alookup id (finishOkStep s id v).completed =
        some { r0 with status := Status.completed, response := some v, end_time := some s.now } := by
      rw [hproj]
      show alookup id (ainsert id _ s.completed) = _
      rw [alookup_ainsert_self]
    exact ⟨_, grs_completed hcl, rfl, rfl⟩

/-- Witness for C7 at the single-running-task state with result `V`. -/
theorem C7_result_roundtrip_witness :
    (∀ id r, get_request_status exRun id = some r → r.response.isSome →
      r.status = Status.completed) ∧
    (∀ id v, id ∈ exRun.running →
      ∃ r, get_request_status (finishOkStep exRun id v) id = some r ∧
        r.status = Status.completed ∧ r.response = some v) :=
  C7_result_roundtrip 1 exRun reach_exRun

/-- Claim C8 (confirmed): under the no-id-reuse precondition (built into the
submit step, per the spec), every tracked id lies in exactly one of the live
map (status `queued`/`processing`) and the finished map (status
`completed`/`error`), and one step never moves an id out of the finished map
or back into the live map. -/
theorem C8_live_finished_partition (n : Nat) (s s2 : QState) (hs : Reach n s)
    (hstep : Step s s2) :
    (∀ id, ¬(id ∈ keys s.active ∧ id ∈ keys s.completed)) ∧
    (∀ id r, get_request_status s id = some r →
      (((r.status = Status.queued ∨ r.status = Status.processing) ↔ id ∈ keys s.active) ∧
       ((r.status = Status.completed ∨ r.status = Status.error) ↔ id ∈ keys s.completed))) ∧
    (∀ id, id ∈ keys s.completed → id ∈ keys s2.completed ∧ id ∉ keys s2.active) := by
  have hI := reach_inv hs
  refine ⟨?_, ?_, ?_⟩
  · rintro id ⟨h1, h2⟩
    exact hI.disj id h1 h2
  · intro id r hgrs
    unfold get_request_status at hgrs
    cases hc : alookup id s.completed with
    | some rc =>
      rw [hc] at hgrs
      replace hgrs := Option.some.inj hgrs
      rw [hgrs] at hc
      have hmem : id ∈ keys s.completed := mem_keys_of_alookup_some hc
      have hterm := hI.completedStatus id r hc
      constructor
      · constructor
        · intro hqp
          rcases hterm with h | h <;> rcases hqp with h2 | h2 <;> rw [h] at h2 <;> cases h2
        · intro hmemA
          exact absurd hmem (hI.disj id hmemA)
      · exact ⟨fun _ => hmem, fun _ => hterm⟩
    | none =>
      rw [hc] at hgrs
      replace hgrs : alookup id s.active = some r := hgrs
      have hmem : id ∈ keys s.active := mem_keys_of_alookup_some hgrs
      have hlive := hI.activeStatus id r hgrs
      constructor
      · exact ⟨fun _ => hmem, fun _ => hlive⟩
      · constructor
        · intro hterm2
          rcases hlive with h | h <;> rcases hterm2 with h2 | h2 <;> rw [h] at h2 <;> cases h2
        · intro hmemC
          rw [mem_keys_iff, hc] at hmemC
          simp at hmemC
  · intro id hidC
    have hnotA : id ∉ keys s.active := fun hA => hI.disj id hA hidC
    cases hstep with
    | submit id2 q hf =>
      have hne : id ≠ id2 := by
        intro hh
        subst hh
        exact (not_mem_keys_of_alookup_none _ _ hf.2) hidC
      refine ⟨hidC, ?_⟩
      intro hmem
      rw [show (submitStep s id2 q).active = ainsert id2 _ s.active from rfl] at hmem
      rcases (mem_keys_ainsert id id2 _ s.active).mp hmem with h | h
      · exact hne h
      · exact hnotA h
    | dispatch hc2 hq2 =>
      rw [dispatch_completed s, dispatch_active s]
      exact ⟨hidC, hnotA⟩
    | begin_ id2 hsp =>
      refine ⟨hidC, ?_⟩
      intro hmem
      rw [show (beginStep s id2).active = aupdate id2 _ s.active from rfl,
        keys_aupdate] at hmem
      exact hnotA hmem
    | finishOk id2 v hr =>
      obtain ⟨r0, hr0, -⟩ := hI.runningActive id2 hr
      have hproj := finishOk_proj s id2 v r0 hr0
      constructor
      · rw [hproj]
        show id ∈ keys (ainsert id2 _ s.completed)
        exact (mem_keys_ainsert id id2 _ s.completed).mpr (Or.inr hidC)
      · rw [hproj]
        show id ∉ keys (aerase id2 s.active)
        intro hmem
        exact hnotA (mem_keys_aerase _ _ _ hmem)
    | finishErr id2 msg hr =>
      obtain ⟨r0, hr0, -⟩ := hI.runningActive id2 hr
      have hproj := finishErr_proj s id2 msg r0 hr0
      constructor
      · rw [hproj]
        show id ∈ keys (ainsert id2 _ s.completed)
        exact (mem_keys_ainsert id id2 _ s.completed).mpr (Or.inr hidC)
      · rw [hproj]
        show id ∉ keys (aerase id2 s.active)
        intro hmem
        exact hnotA (mem_keys_aerase _ _ _ hmem)
    | cleanup id2 hf => exact ⟨hidC, hnotA⟩

/-- Witness for C8 at the concrete step submitting `b` after `a`. -/
theorem C8_live_finished_partition_witness :
    (∀ id, ¬(id ∈ keys exS1.active ∧ id ∈ keys exS1.completed)) ∧
    (∀ id r, get_request_status exS1 id = some r →
      (((r.status = Status.queued ∨ r.status = Status.processing) ↔ id ∈ keys exS1.active) ∧
       ((r.status = Status.completed ∨ r.status = Status.error) ↔ id ∈ keys exS1.completed))) ∧
    (∀ id, id ∈ keys exS1.completed → id ∈ keys exS2.completed ∧ id ∉ keys exS2.active) :=
  C8_live_finished_partition 1 exS1 exS2 reach_exS1 (Step.submit exS1 "b" "p" (by decide))

/-- Claim C4 (counterexample): the claimed iff fails in both directions.  In
the reachable state with one task `a` just submitted (nothing processing),
`position` returns `0` although the status is `queued`; and in the reachable
state where the dispatcher has popped `a` but its execution unit has not yet
run, `position` returns `-1` although the status is still `queued`, not
unknown or terminal. -/
theorem C4_position_counterexample :
    Reach 1 exS1 ∧ statusOf exS1 "a" = some Status.queued ∧
    get_queue_position exS1 "a" = 0 ∧
    Reach 1 exDa ∧ statusOf exDa "a" = some Status.queued ∧
    get_queue_position exDa "a" = -1 :=
  ⟨reach_exS1, by decide, by decide, reach_exDa, by decide, by decide⟩

/-- Claim C4 (amended): `position` returns `0` if the status is `processing`;
for a `queued` task still in the backlog it returns the backlog index plus the
processing counter (which is `0` for the head with nothing processing, so `0`
does not imply `processing`); and it returns `-1` exactly when the id is
unknown, terminal, or `queued` but already popped from the backlog by the
dispatcher. -/
theorem C4_position_characterization (n : Nat) (s : QState) (hs : Reach n s) (id : String) :
    (statusOf s id = some Status.processing → get_queue_position s id = 0) ∧
    (∀ r i, alookup id s.active = some r → r.status = Status.queued →
      posIn id s.queue = some i →
      get_queue_position s id = (i : Int) + (s.current_processing : Int)) ∧
    (get_queue_position s id = -1 ↔
      (get_request_status s id = none ∨ statusOf s id = some Status.completed ∨
       statusOf s id = some Status.error ∨
       (statusOf s id = some Status.queued ∧ posIn id s.queue = none))) ∧
    (get_queue_position s id = 0 ↔
      (statusOf s id = some Status.processing ∨
       (statusOf s id = some Status.queued ∧ posIn id s.queue = some 0 ∧
        s.current_processing = 0))) := by
  have hI := reach_inv hs
  cases ha : alookup id s.active with
  | none =>
    have hpos : get_queue_position s id = -1 := gqp_none ha
    cases hc : alookup id s.completed with
    | none =>
      have hgrs : get_request_status s id = none := by
        unfold get_request_status
        rw [hc]
        exact ha
      have hst : statusOf s id = none := by
        unfold statusOf
        rw [hgrs]
        rfl
      refine ⟨?_, ?_, ?_, ?_⟩
      · intro h
        rw [hst] at h
        cases h
      · intro r i hr
        cases hr
      · exact ⟨fun _ => Or.inl hgrs, fun _ => hpos⟩
      · constructor
        · intro h0
          rw [hpos] at h0
          cases h0
        · intro h
          rcases h with h | h
          · rw [hst] at h
            cases h
          · rw [hst] at h
            exact absurd h.1 (by simp)
    | some rc =>
      have hst : statusOf s id = some rc.status := by
        unfold statusOf
        rw [grs_completed hc]
        rfl
      have hterm := hI.completedStatus id rc hc
      refine ⟨?_, ?_, ?_, ?_⟩
      · intro h
        rw [hst] at h
        replace h := Option.some.inj h
        rcases hterm with h2 | h2 <;> rw [h2] at h <;> cases h
      · intro r i hr
        cases hr
      · constructor
        · intro _
          rcases hterm with h2 | h2
          · exact Or.inr (Or.inl (by rw [hst, h2]))
          · exact Or.inr (Or.inr (Or.inl (by rw [hst, h2])))
        · intro _
          exact hpos
      · constructor
        · intro h0
          rw [hpos] at h0
          cases h0
        · intro h
          rcases h with h | h
          · rw [hst] at h
            replace h := Option.some.inj h
            rcases hterm with h2 | h2 <;> rw [h2] at h <;> cases h
          · have h1 := h.1
            rw [hst] at h1
            replace h1 := Option.some.inj h1
            rcases hterm with h2 | h2 <;> rw [h2] at h1 <;> cases h1
  | some r =>
    rcases hI.activeStatus id r ha with hq | hp
    case inr =>
      have hstP : statusOf s id = some Status.processing := by
        rw [statusOf_active hI ha, hp]
      have hpos : get_queue_position s id = 0 := gqp_processing ha hp
      have hgrsS : get_request_status s id = some r := by
        have hcn : alookup id s.completed = none :=
          alookup_eq_none_of_not_mem _ _ (hI.disj id (mem_keys_of_alookup_some ha))
        rw [grs_active hcn]
        exact ha
      refine ⟨fun _ => hpos, ?_, ?_, ?_⟩
      · intro r2 i hr2 hst2
        replace hr2 := Option.some.inj hr2
        rw [hr2, hst2] at hp
        cases hp
      · constructor
        · intro h0
          rw [hpos] at h0
          cases h0
        · intro h
          rcases h with h | h | h | h
          · rw [hgrsS] at h
            cases h
          · rw [hstP] at h
            exact absurd (Option.some.inj h) (by simp)
          · rw [hstP] at h
            exact absurd (Option.some.inj h) (by simp)
          · have h1 := h.1
            rw [hstP] at h1
            exact absurd (Option.some.inj h1) (by simp)
      · exact ⟨fun _ => Or.inl hstP, fun _ => hpos⟩
    case inl =>
      have hstQ : statusOf s id = some Status.queued := by
        rw [statusOf_active hI ha, hq]
      have hgrsS : get_request_status s id = some r := by
        have hcn : alookup id s.completed = none :=
          alookup_eq_none_of_not_mem _ _ (hI.disj id (mem_keys_of_alookup_some ha))
        rw [grs_active hcn]
        exact ha
      cases hpi : posIn id s.queue with
      | some i =>
        have hpos : get_queue_position s id = (i : Int) + (s.current_processing : Int) :=
          gqp_queued_some ha hq hpi
        refine ⟨?_, ?_, ?_, ?_⟩
        · intro h
          rw [hstQ] at h
          exact absurd (Option.some.inj h) (by simp)
        · intro r2 i2 hr2 hst2 hpi2
          rw [← Option.some.inj hpi2]
          exact hpos
        · constructor
          · intro h0
            rw [hpos] at h0
            exfalso
            omega
          · intro h
            rcases h with h | h | h | h
            · rw [hgrsS] at h
              cases h
            · rw [hstQ] at h
              exact absurd (Option.some.inj h) (by simp)
            · rw [hstQ] at h
              exact absurd (Option.some.inj h) (by simp)
            · cases h.2
        · constructor
          · intro h0
            rw [hpos] at h0
            right
            have hi0 : i = 0 := by omega
            have hc0 : s.current_processing = 0 := by omega
            refine ⟨hstQ, ?_, hc0⟩
            rw [hi0]
          · intro h
            rcases h with h | h
            · rw [hstQ] at h
              exact absurd (Option.some.inj h) (by simp)
            · obtain ⟨-, hp0, hc0⟩ := h
              have hi0 := Option.some.inj hp0
              rw [hpos, hi0, hc0]
              rfl
      | none =>
        have hpos : get_queue_position s id = -1 := gqp_queued_none ha hq hpi
        refine ⟨?_, ?_, ?_, ?_⟩
        · intro h
          rw [hstQ] at h
          exact absurd (Option.some.inj h) (by simp)
        · intro r2 i2 hr2 hst2 hpi2
          cases hpi2
        · exact ⟨fun _ => Or.inr (Or.inr (Or.inr ⟨hstQ, rfl⟩)), fun _ => hpos⟩
        · constructor
          · intro h0
            rw [hpos] at h0
            cases h0
          · intro h
            rcases h with h | h
            · rw [hstQ] at h
              exact absurd (Option.some.inj h) (by simp)
            · obtain ⟨-, hp0, -⟩ := h
              cases hp0

/-- Witness for the amended C4 at the one-task state `exS1` with id `a`. -/
theorem C4_position_characterization_witness :
    (statusOf exS1 "a" = some Status.processing → get_queue_position exS1 "a" = 0) ∧
    (∀ r i, alookup "a" exS1.active = some r → r.status = Status.queued →
      posIn "a" exS1.queue = some i →
      get_queue_position exS1 "a" = (i : Int) + (exS1.current_processing : Int)) ∧
    (get_queue_position exS1 "a" = -1 ↔
      (get_request_status exS1 "a" = none ∨ statusOf exS1 "a" = some Status.completed ∨
       statusOf exS1 "a" = some Status.error ∨
       (statusOf exS1 "a" = some Status.queued ∧ posIn "a" exS1.queue = none))) ∧
    (get_queue_position exS1 "a" = 0 ↔
      (statusOf exS1 "a" = some Status.processing ∨
       (statusOf exS1 "a" = some Status.queued ∧ posIn "a" exS1.queue = some 0 ∧
        exS1.current_processing = 0))) :=
  C4_position_characterization 1 exS1 reach_exS1 "a"
